import Mathlib

/-!
Shallow embedding of the Plan aggregate of the planning-agent-system
repository (`src/models.py`): the `Step` and `Plan` data types and the
mutating / querying operations `add_step`, `get_step`, `update_step`,
`delete_step`, `reset_steps`, `get_next_step`, `_dependencies_met`,
`_update_plan_status` and `get_progress`.

Conventions of the embedding:
* `datetime.utcnow()` is modelled by an explicit `now : Nat` parameter;
  all calls inside one Python method happen at the same modelled instant.
* the freshly generated `uuid4` id in `add_step` is an explicit
  `new_id : String` parameter.
* Python's stable `sorted` / `list.sort` by `order` is `List.mergeSort`
  (documented stable) with comparison `a.order ≤ b.order`.
* floats are modelled as exact rationals; `round(x, 2)` is rounding
  `x * 100` to the nearest integer and dividing by `100`.
* methods that mutate `self` in place return the new `Plan`; boolean
  results become `Bool × Plan` pairs.
-/

namespace PlanningAgent

/-- `StepStatus` from `src/models.py`. -/
inductive StepStatus where
  | pending
  | in_progress
  | completed
  | failed
  | skipped
deriving DecidableEq, Repr

/-- `PlanStatus` from `src/models.py`. -/
inductive PlanStatus where
  | not_started
  | in_progress
  | completed
  | paused
  | failed
deriving DecidableEq, Repr

/-- Internal `Step` model from `src/models.py`. -/
structure Step where
  step_id : String
  order : Nat
  description : String
  status : StepStatus
  depends_on : List String
  notes : Option String
  created_at : Nat
  updated_at : Nat
  completed_at : Option Nat
deriving DecidableEq, Repr

/-- Internal `Plan` model from `src/models.py`. -/
structure Plan where
  plan_id : String
  name : String
  description : String
  status : PlanStatus
  user_id : String
  created_at : Nat
  updated_at : Nat
  steps : List Step
deriving DecidableEq, Repr

/-- `Step.update_status`: set the status, refresh `updated_at`, stamp
`completed_at` when the new status is `completed`, and replace the notes
when notes are supplied. -/
def Step.update_status (s : Step) (status : StepStatus)
    (notes : Option String) (now : Nat) : Step :=
  let s1 : Step := { s with status := status, updated_at := now }
  let s2 : Step :=
    if status = StepStatus.completed then { s1 with completed_at := some now } else s1
  match notes with
  | some n => { s2 with notes := some n }
  | none => s2

/-- `Plan.get_step`: first step with the given id, if any. -/
def Plan.get_step (p : Plan) (step_id : String) : Option Step :=
  p.steps.find? fun s => s.step_id == step_id

/-- The status list of a plan's steps, in list order
(`[step.status for step in self.steps]`). -/
def stepStatuses (steps : List Step) : List StepStatus :=
  steps.map Step.status

/-- The status-derivation rule of `Plan._update_plan_status` on a
nonempty status list: all completed → completed; else any failed →
failed; else any in-progress or completed → in-progress; else
not-started. -/
def derive_status (step_statuses : List StepStatus) : PlanStatus :=
  if step_statuses.all fun st => decide (st = StepStatus.completed) then
    PlanStatus.completed
  else if step_statuses.any fun st => decide (st = StepStatus.failed) then
    PlanStatus.failed
  else if step_statuses.any fun st =>
      decide (st = StepStatus.in_progress ∨ st = StepStatus.completed) then
    PlanStatus.in_progress
  else
    PlanStatus.not_started

/-- The plan status `Plan._update_plan_status` computes from a step
list: `not_started` when there are no steps, otherwise the derivation
rule on the statuses. -/
def statusOf (steps : List Step) : PlanStatus :=
  if steps.isEmpty then PlanStatus.not_started
  else derive_status (stepStatuses steps)

/-- `Plan._update_plan_status`: recompute the plan status from the step
statuses. -/
def Plan.update_plan_status (p : Plan) : Plan :=
  { p with status := statusOf p.steps }

/-- The insertion scan of `Plan.add_step`: place the new step right
before the first existing step whose order is strictly greater than the
new step's order; if there is none, append. -/
def insertByOrder (new : Step) : List Step → List Step
  | [] => [new]
  | s :: rest =>
    if new.order < s.order then new :: s :: rest
    else s :: insertByOrder new rest

/-- `Plan.add_step`: default the order to `len(steps) + 1`, build a
pending step, insert it by order, bump the order of every *other* step
whose order is ≥ the requested order, refresh `updated_at` and recompute
the plan status.  Returns the new step id with the new plan. -/
def Plan.add_step (p : Plan) (description : String) (order : Option Nat)
    (depends_on : Option (List String)) (notes : Option String)
    (new_id : String) (now : Nat) : String × Plan :=
  let ord : Nat :=
    match order with
    | some o => o
    | none => p.steps.length + 1
  let step : Step :=
    { step_id := new_id
      order := ord
      description := description
      status := StepStatus.pending
      depends_on := depends_on.getD []
      notes := notes
      created_at := now
      updated_at := now
      completed_at := none }
  let steps1 := insertByOrder step p.steps
  let steps2 := steps1.map fun s =>
    if s.step_id ≠ new_id ∧ ord ≤ s.order then { s with order := s.order + 1 } else s
  (new_id, Plan.update_plan_status { p with steps := steps2, updated_at := now })

/-- In-place mutation of the step found by `get_step`: apply `f` to the
first step carrying the given id, keep every other step. -/
def updateFirst (step_id : String) (f : Step → Step) : List Step → List Step
  | [] => []
  | s :: rest =>
    if s.step_id = step_id then f s :: rest
    else s :: updateFirst step_id f rest

/-- `Plan.update_step`: fail when the id is absent; otherwise update the
found step (status branch, else notes-only branch, else nothing),
refresh the plan's `updated_at` and recompute the plan status. -/
def Plan.update_step (p : Plan) (step_id : String) (status : Option StepStatus)
    (notes : Option String) (now : Nat) : Bool × Plan :=
  match p.get_step step_id with
  | none => (false, p)
  | some _ =>
    let f : Step → Step := fun step =>
      match status with
      | some st => step.update_status st notes now
      | none =>
        match notes with
        | some n => { step with notes := some n, updated_at := now }
        | none => step
    (true, Plan.update_plan_status
      { p with steps := updateFirst step_id f p.steps, updated_at := now })

/-- The renumbering pass of `Plan.delete_step`: assign orders
`i+1, i+2, …` along the list. -/
def renumber (i : Nat) : List Step → List Step
  | [] => []
  | s :: rest => { s with order := i + 1 } :: renumber (i + 1) rest

/-- `Plan.delete_step`: fail when the id is absent; otherwise drop every
step with that id, sort the remainder by order (stably) and renumber it
`1..N`, refresh `updated_at` and recompute the plan status. -/
def Plan.delete_step (p : Plan) (step_id : String) (now : Nat) : Bool × Plan :=
  match p.get_step step_id with
  | none => (false, p)
  | some _ =>
    let remaining := p.steps.filter fun s => s.step_id ≠ step_id
    let sorted := remaining.mergeSort fun a b => decide (a.order ≤ b.order)
    (true, Plan.update_plan_status
      { p with steps := renumber 0 sorted, updated_at := now })

/-- `Plan.reset_steps`: every step back to `pending` with `completed_at`
cleared, plan status forced to `not_started`. -/
def Plan.reset_steps (p : Plan) (now : Nat) : Plan :=
  { p with
    steps := p.steps.map fun s =>
      { s with
        status := StepStatus.pending
        completed_at := none
        updated_at := now }
    status := PlanStatus.not_started
    updated_at := now }

/-- `Plan._dependencies_met`: every id in `depends_on` resolves via
`get_step` to a step whose status is exactly `completed`. -/
def Plan.dependencies_met (p : Plan) (step : Step) : Bool :=
  step.depends_on.all fun dep_id =>
    match p.get_step dep_id with
    | none => false
    | some dep => decide (dep.status = StepStatus.completed)

/-- `Plan.get_next_step`: the first step in ascending-order traversal
that is pending with all dependencies met. -/
def Plan.get_next_step (p : Plan) : Option Step :=
  let sorted := p.steps.mergeSort fun a b => decide (a.order ≤ b.order)
  sorted.find? fun s => decide (s.status = StepStatus.pending) && p.dependencies_met s

/-- The record returned by `Plan.get_progress`. -/
structure Progress where
  total_steps : Nat
  completed_steps : Nat
  in_progress_steps : Nat
  pending_steps : Nat
  failed_steps : Nat
  skipped_steps : Nat
  completion_percentage : ℚ
deriving DecidableEq, Repr

/-- `round(x, 2)` on exact rationals: round to the nearest hundredth. -/
def round2 (q : ℚ) : ℚ := (round (q * 100) : ℤ) / 100

/-- `Plan.get_progress`: total and per-status counts, with the
completion percentage `(completed / total) * 100` rounded to two
decimals, and the all-zero record when there are no steps. -/
def Plan.get_progress (p : Plan) : Progress :=
  let total := p.steps.length
  if total = 0 then
    { total_steps := 0
      completed_steps := 0
      in_progress_steps := 0
      pending_steps := 0
      failed_steps := 0
      skipped_steps := 0
      completion_percentage := 0 }
  else
    let completed := p.steps.countP fun s => decide (s.status = StepStatus.completed)
    let in_progress := p.steps.countP fun s => decide (s.status = StepStatus.in_progress)
    let pending := p.steps.countP fun s => decide (s.status = StepStatus.pending)
    let failed := p.steps.countP fun s => decide (s.status = StepStatus.failed)
    let skipped := p.steps.countP fun s => decide (s.status = StepStatus.skipped)
    { total_steps := total
      completed_steps := completed
      in_progress_steps := in_progress
      pending_steps := pending
      failed_steps := failed
      skipped_steps := skipped
      completion_percentage := round2 (((completed : ℚ) / (total : ℚ)) * 100) }

/-- `ManagementService.update_plan_metadata` (`src/services.py`), the
in-memory part: overwrite name, description and status when supplied and
refresh `updated_at`. -/
def update_plan_metadata (p : Plan) (name : Option String)
    (description : Option String) (status : Option PlanStatus) (now : Nat) : Plan :=
  let p1 := match name with
    | some n => { p with name := n }
    | none => p
  let p2 := match description with
    | some d => { p1 with description := d }
    | none => p1
  let p3 := match status with
    | some st => { p2 with status := st }
    | none => p2
  { p3 with updated_at := now }

/-! ### Concrete fixtures used to exercise the operations -/

/-- A step with the given id, order, status and dependencies; the
remaining fields are fixed innocuous values. -/
def mkStep (id : String) (ord : Nat) (st : StepStatus) (deps : List String) : Step :=
  { step_id := id
    order := ord
    description := "step"
    status := st
    depends_on := deps
    notes := none
    created_at := 0
    updated_at := 0
    completed_at := none }

/-- A plan with the given steps; the metadata is fixed innocuous
values. -/
def mkPlan (steps : List Step) : Plan :=
  { plan_id := "plan-1"
    name := "plan"
    description := "a plan"
    status := PlanStatus.not_started
    user_id := "user-1"
    created_at := 0
    updated_at := 0
    steps := steps }

/-- A one-step plan with the contiguous order range `{1}`. -/
def examplePlanA : Plan := mkPlan [mkStep "a" 1 StepStatus.pending []]

/-- A three-step plan with the contiguous order range `{1, 2, 3}`. -/
def examplePlanB : Plan :=
  mkPlan [mkStep "a" 1 StepStatus.pending [], mkStep "b" 2 StepStatus.pending [],
    mkStep "c" 3 StepStatus.pending []]

/-- A plan whose first step is completed and whose second step depends
on it. -/
def examplePlanC : Plan :=
  mkPlan [mkStep "a" 1 StepStatus.completed [], mkStep "b" 2 StepStatus.pending ["a"]]

/-- A plan with one completed step whose `completed_at` is set. -/
def examplePlanD : Plan :=
  mkPlan [{ mkStep "a" 1 StepStatus.completed [] with completed_at := some 3 },
    mkStep "b" 2 StepStatus.pending []]

/-! ### Helper lemmas about the embedded operations -/

theorem update_plan_status_steps (p : Plan) :
    (Plan.update_plan_status p).steps = p.steps := rfl

theorem update_plan_status_status (p : Plan) :
    (Plan.update_plan_status p).status = statusOf p.steps := rfl

theorem insertByOrder_perm (new : Step) :
    ∀ l : List Step, (insertByOrder new l).Perm (new :: l)
  | [] => List.Perm.refl _
  | s :: rest => by
    simp only [insertByOrder]
    split
    · exact List.Perm.refl _
    · exact ((insertByOrder_perm new rest).cons s).trans (List.Perm.swap new s rest)

theorem insertByOrder_length (new : Step) (l : List Step) :
    (insertByOrder new l).length = l.length + 1 := by
  rw [(insertByOrder_perm new l).length_eq, List.length_cons]

theorem range'_one_concat (n : Nat) :
    List.range' 1 (n + 1) = List.range' 1 n ++ [n + 1] := by
  have h : 1 + 1 * n = n + 1 := by omega
  rw [List.range'_concat, h]

/-- Inserting the requested order and shifting every order ≥ it turns the
contiguous range `1..N` into the contiguous range `1..N+1`, provided the
requested order lies in `1..N+1`. -/
theorem bump_range_perm :
    ∀ N k : Nat, 1 ≤ k → k ≤ N + 1 →
      (k :: (List.range' 1 N).map fun o => if k ≤ o then o + 1 else o).Perm
        (List.range' 1 (N + 1))
  | 0, k, h1, h2 => by
    have hk : k = 1 := by omega
    subst hk
    simp
  | N + 1, k, h1, h2 => by
    by_cases hk : k ≤ N + 1
    · have e2 : (List.range' 1 (N + 1)).map (fun o => if k ≤ o then o + 1 else o)
          = (List.range' 1 N).map (fun o => if k ≤ o then o + 1 else o) ++ [N + 1 + 1] := by
        rw [range'_one_concat, List.map_append]
        simp only [List.map_cons, List.map_nil, if_pos hk]
      rw [e2, range'_one_concat (N + 1)]
      exact List.Perm.append_right [N + 2] (bump_range_perm N k h1 hk)
    · have hk2 : k = N + 2 := by omega
      subst hk2
      have e0 : List.map (fun o => if N + 2 ≤ o then o + 1 else o) (List.range' 1 (N + 1))
          = List.map id (List.range' 1 (N + 1)) := by
        apply List.map_congr_left
        intro o ho
        rw [List.mem_range'_1] at ho
        simp only [id_eq]
        rw [if_neg (by omega)]
      rw [e0, List.map_id, range'_one_concat (N + 1)]
      exact (List.perm_append_singleton _ _).symm

/-- The multiset of orders after the insert-and-bump pass of `add_step`
is the contiguous range `1..N+1`, for a fresh id and an in-range
requested order. -/
theorem orders_after_bump (steps : List Step) (new : Step) (new_id : String) (N : Nat)
    (hid : new.step_id = new_id)
    (hcontig : (steps.map Step.order).Perm (List.range' 1 N))
    (hfresh : ∀ s ∈ steps, s.step_id ≠ new_id)
    (h1 : 1 ≤ new.order) (h2 : new.order ≤ N + 1) :
    (((insertByOrder new steps).map fun s =>
        if s.step_id ≠ new_id ∧ new.order ≤ s.order then { s with order := s.order + 1 }
        else s).map Step.order).Perm (List.range' 1 (N + 1)) := by
  rw [List.map_map]
  have hstep : (insertByOrder new steps).Perm (new :: steps) := insertByOrder_perm new steps
  refine (hstep.map _).trans ?_
  rw [List.map_cons]
  have hnew : (Step.order ∘ fun s =>
      if s.step_id ≠ new_id ∧ new.order ≤ s.order then { s with order := s.order + 1 }
      else s) new = new.order := by
    simp only [Function.comp_apply]
    rw [if_neg]
    intro hc
    exact hc.1 hid
  rw [hnew]
  have hrest : List.map (Step.order ∘ fun s =>
      if s.step_id ≠ new_id ∧ new.order ≤ s.order then { s with order := s.order + 1 }
      else s) steps
      = List.map ((fun o => if new.order ≤ o then o + 1 else o) ∘ Step.order) steps := by
    apply List.map_congr_left
    intro s hs
    have hns : s.step_id ≠ new_id := hfresh s hs
    by_cases h : new.order ≤ s.order
    · simp only [Function.comp_apply, if_pos (And.intro hns h), if_pos h]
    · simp only [Function.comp_apply, if_neg h]
      rw [if_neg]
      intro hc
      exact h hc.2
  rw [hrest, ← List.map_map]
  exact ((hcontig.map _).cons new.order).trans (bump_range_perm N new.order h1 h2)

theorem add_step_length (p : Plan) (descr : String) (order : Option Nat)
    (dep : Option (List String)) (notes : Option String) (new_id : String) (now : Nat) :
    (p.add_step descr order dep notes new_id now).2.steps.length = p.steps.length + 1 := by
  cases order with
  | none => simp [Plan.add_step, update_plan_status_steps, insertByOrder_length]
  | some k => simp [Plan.add_step, update_plan_status_steps, insertByOrder_length]

theorem add_step_orders_perm (p : Plan) (descr : String) (order : Option Nat)
    (dep : Option (List String)) (notes : Option String) (new_id : String) (now : Nat)
    (hcontig : (p.steps.map Step.order).Perm (List.range' 1 p.steps.length))
    (hfresh : ∀ s ∈ p.steps, s.step_id ≠ new_id)
    (hord : ∀ k, order = some k → 1 ≤ k ∧ k ≤ p.steps.length + 1) :
    ((p.add_step descr order dep notes new_id now).2.steps.map Step.order).Perm
      (List.range' 1 (p.add_step descr order dep notes new_id now).2.steps.length) := by
  rw [add_step_length]
  cases order with
  | none =>
    exact orders_after_bump p.steps
      { step_id := new_id, order := p.steps.length + 1, description := descr,
        status := StepStatus.pending, depends_on := dep.getD [], notes := notes,
        created_at := now, updated_at := now, completed_at := none }
      new_id p.steps.length rfl hcontig hfresh (Nat.le_add_left 1 p.steps.length)
      (Nat.le_refl (p.steps.length + 1))
  | some k =>
    obtain ⟨hk1, hk2⟩ := hord k rfl
    exact orders_after_bump p.steps
      { step_id := new_id, order := k, description := descr,
        status := StepStatus.pending, depends_on := dep.getD [], notes := notes,
        created_at := now, updated_at := now, completed_at := none }
      new_id p.steps.length rfl hcontig hfresh hk1 hk2

theorem renumber_orders :
    ∀ (l : List Step) (i : Nat),
      (renumber i l).map Step.order = List.range' (i + 1) l.length
  | [], _ => rfl
  | s :: rest, i => by
    simp only [renumber, List.map_cons, List.length_cons, List.range'_succ]
    rw [renumber_orders rest (i + 1)]

theorem renumber_length :
    ∀ (l : List Step) (i : Nat), (renumber i l).length = l.length
  | [], _ => rfl
  | s :: rest, i => by
    simp only [renumber, List.length_cons, renumber_length rest]

theorem delete_step_orders_perm (p : Plan) (sid : String) (now : Nat)
    (h : (p.delete_step sid now).1 = true) :
    ((p.delete_step sid now).2.steps.map Step.order).Perm
      (List.range' 1 (p.delete_step sid now).2.steps.length) := by
  cases hg : p.get_step sid with
  | none => simp [Plan.delete_step, hg] at h
  | some s =>
    simp only [Plan.delete_step, hg, update_plan_status_steps]
    rw [renumber_orders, renumber_length]

/-- The first element `find?` produces in a list sorted for a reflexive
boolean relation is minimal among the elements satisfying the
predicate. -/
theorem find?_min_of_pairwise {α : Type} (le : α → α → Bool) (pred : α → Bool)
    (hrefl : ∀ a, le a a = true) :
    ∀ (l : List α), l.Pairwise (fun a b => le a b = true) →
      ∀ s, l.find? pred = some s → ∀ t ∈ l, pred t = true → le s t = true
  | [], _, s, h => by simp at h
  | x :: rest, hp, s, hfind => by
    rcases List.pairwise_cons.mp hp with ⟨hx_le, hrest⟩
    intro t ht hpt
    by_cases hx : pred x = true
    · rw [List.find?_cons_of_pos _ hx] at hfind
      injection hfind with hs
      subst hs
      rcases List.mem_cons.mp ht with rfl | htr
      · exact hrefl t
      · exact hx_le t htr
    · rw [List.find?_cons_of_neg _ hx] at hfind
      rcases List.mem_cons.mp ht with rfl | htr
      · exact absurd hpt hx
      · exact find?_min_of_pairwise le pred hrefl rest hrest s hfind t htr hpt

/-- `_dependencies_met` is true exactly when every dependency id resolves
to an existing step whose status is `completed`. -/
theorem dependencies_met_iff (p : Plan) (s : Step) :
    p.dependencies_met s = true ↔
      ∀ d ∈ s.depends_on,
        ∃ t, p.get_step d = some t ∧ t.status = StepStatus.completed := by
  simp only [Plan.dependencies_met, List.all_eq_true]
  constructor
  · intro h d hd
    have hdd := h d hd
    cases hg : p.get_step d with
    | none => rw [hg] at hdd; simp at hdd
    | some t =>
      rw [hg] at hdd
      simp only [decide_eq_true_eq] at hdd
      exact ⟨t, rfl, hdd⟩
  · intro h d hd
    rcases h d hd with ⟨t, hg, hst⟩
    rw [hg]
    simp [hst]

/-! ### C1 -/

/-- C1, counterexample: the claim as stated fails.  `examplePlanA` has the
contiguous orders `{1}`, yet `add_step` with requested order `3` (which is
≥ 1, as the claim allows) yields the order multiset `{1, 3}`, not
`{1, 2}`: the bump pass only increments orders ≥ the requested order, so a
requested order greater than `N + 1` leaves a gap. -/
theorem add_step_large_order_breaks_contiguity :
    ((examplePlanA.steps.map Step.order).Perm
        (List.range' 1 examplePlanA.steps.length)) ∧
    ((examplePlanA.add_step "x" (some 3) none none "b" 5).2.steps.map Step.order = [1, 3]) ∧
    ¬ (((examplePlanA.add_step "x" (some 3) none none "b" 5).2.steps.map Step.order).Perm
        (List.range' 1 (examplePlanA.add_step "x" (some 3) none none "b" 5).2.steps.length)) := by
  decide

/-- C1, amended: for every plan whose step orders form the contiguous
range `1..N`, after an `add_step` call whose requested order lies in
`1..N+1` (or is omitted) and is paired with a fresh step id, and after
any successful `delete_step` call, the multiset of step orders again
equals exactly `{1, ..., M}` where `M` is the new step count. -/
theorem add_delete_restore_contiguous_orders (p : Plan) (descr : String)
    (order : Option Nat) (dep : Option (List String)) (notes : Option String)
    (new_id sid : String) (now now' : Nat)
    (hcontig : (p.steps.map Step.order).Perm (List.range' 1 p.steps.length))
    (hfresh : ∀ s ∈ p.steps, s.step_id ≠ new_id)
    (hord : ∀ k, order = some k → 1 ≤ k ∧ k ≤ p.steps.length + 1) :
    (((p.add_step descr order dep notes new_id now).2.steps.map Step.order).Perm
      (List.range' 1 (p.add_step descr order dep notes new_id now).2.steps.length)) ∧
    ((p.delete_step sid now').1 = true →
      ((p.delete_step sid now').2.steps.map Step.order).Perm
        (List.range' 1 (p.delete_step sid now').2.steps.length)) :=
  ⟨add_step_orders_perm p descr order dep notes new_id now hcontig hfresh hord,
    fun h => delete_step_orders_perm p sid now' h⟩

/-- C1, witness: the amended theorem applied to the concrete three-step
plan `examplePlanB`, inserting at order `2` and deleting step `"b"`. -/
theorem add_delete_restore_contiguous_orders_witness :
    (((examplePlanB.add_step "x" (some 2) none none "n9" 5).2.steps.map Step.order).Perm
      (List.range' 1 (examplePlanB.add_step "x" (some 2) none none "n9" 5).2.steps.length)) ∧
    (((examplePlanB.delete_step "b" 7).2.steps.map Step.order).Perm
      (List.range' 1 (examplePlanB.delete_step "b" 7).2.steps.length)) := by
  have h := add_delete_restore_contiguous_orders examplePlanB "x" (some 2) none none
    "n9" "b" 5 7 (by decide) (by decide)
    (by intro k hk; cases hk; exact ⟨by decide, by decide⟩)
  exact ⟨h.1, h.2 (by decide)⟩

/-! ### C2 -/

/-- C2: `get_next_step` returns a lowest-order pending step whose every
dependency id resolves to an existing step with status exactly
`completed` (so a step with a dangling dependency id is never returned),
and returns `none` exactly when no pending step is eligible. -/
theorem get_next_step_spec (p : Plan) :
    (p.get_next_step = none ↔
      ∀ s ∈ p.steps, ¬(s.status = StepStatus.pending ∧ p.dependencies_met s = true)) ∧
    (∀ s, p.get_next_step = some s →
      s ∈ p.steps ∧ s.status = StepStatus.pending ∧
      (∀ d ∈ s.depends_on,
        ∃ t, p.get_step d = some t ∧ t.status = StepStatus.completed) ∧
      (∀ t ∈ p.steps, t.status = StepStatus.pending → p.dependencies_met t = true →
        s.order ≤ t.order)) ∧
    (∀ s, (∃ d ∈ s.depends_on, p.get_step d = none) → p.get_next_step ≠ some s) := by
  have hsorted : (p.steps.mergeSort fun a b => decide (a.order ≤ b.order)).Pairwise
      (fun a b => (decide (a.order ≤ b.order)) = true) :=
    List.sorted_mergeSort
      (by intro a b c; simp only [decide_eq_true_eq]; omega)
      (by intro a b; simp only [Bool.or_eq_true, decide_eq_true_eq]; omega) p.steps
  have hmem : ∀ x : Step,
      (x ∈ p.steps.mergeSort fun a b => decide (a.order ≤ b.order)) ↔ x ∈ p.steps :=
    fun _ => List.mem_mergeSort
  have hdef : p.get_next_step
      = (p.steps.mergeSort fun a b => decide (a.order ≤ b.order)).find?
        (fun st => decide (st.status = StepStatus.pending) && p.dependencies_met st) := rfl
  have hmain : ∀ s, p.get_next_step = some s →
      s ∈ p.steps ∧ s.status = StepStatus.pending ∧
      (∀ d ∈ s.depends_on,
        ∃ t, p.get_step d = some t ∧ t.status = StepStatus.completed) ∧
      (∀ t ∈ p.steps, t.status = StepStatus.pending → p.dependencies_met t = true →
        s.order ≤ t.order) := by
    intro s hfind
    rw [hdef] at hfind
    have hmem_s : s ∈ p.steps := (hmem s).mp (List.mem_of_find?_eq_some hfind)
    have hpred := List.find?_some hfind
    simp only [Bool.and_eq_true, decide_eq_true_eq] at hpred
    refine ⟨hmem_s, hpred.1, (dependencies_met_iff p s).mp hpred.2, ?_⟩
    intro t ht hpt hmt
    have hle := find?_min_of_pairwise (fun a b => decide (a.order ≤ b.order))
      (fun st => decide (st.status = StepStatus.pending) && p.dependencies_met st)
      (fun a => by simp)
      _ hsorted s hfind t ((hmem t).mpr ht)
      (by rw [Bool.and_eq_true, decide_eq_true_eq]; exact ⟨hpt, hmt⟩)
    exact decide_eq_true_eq.mp hle
  refine ⟨?_, hmain, ?_⟩
  · rw [hdef, List.find?_eq_none]
    constructor
    · intro h s hs hcon
      have hns := h s ((hmem s).mpr hs)
      apply hns
      rw [Bool.and_eq_true, decide_eq_true_eq]
      exact ⟨hcon.1, hcon.2⟩
    · intro h s hs
      have hns := h s ((hmem s).mp hs)
      intro hcon
      rw [Bool.and_eq_true, decide_eq_true_eq] at hcon
      exact hns ⟨hcon.1, hcon.2⟩
  · intro s hd hfind
    rcases hd with ⟨d, hdin, hdnone⟩
    rcases (hmain s hfind).2.2.1 d hdin with ⟨t, hg, _⟩
    rw [hdnone] at hg
    exact Option.noConfusion hg

/-- C2, witness: on `examplePlanC` (step `a` completed, step `b` pending
depending on `a`), `get_next_step` returns step `b`, which is a pending
step of the plan with every dependency completed and minimal order among
eligible pending steps. -/
theorem get_next_step_spec_witness :
    (mkStep "b" 2 StepStatus.pending ["a"]) ∈ examplePlanC.steps ∧
    (mkStep "b" 2 StepStatus.pending ["a"]).status = StepStatus.pending ∧
    (∀ d ∈ (mkStep "b" 2 StepStatus.pending ["a"]).depends_on,
      ∃ t, examplePlanC.get_step d = some t ∧ t.status = StepStatus.completed) ∧
    (∀ t ∈ examplePlanC.steps, t.status = StepStatus.pending →
      examplePlanC.dependencies_met t = true →
      (mkStep "b" 2 StepStatus.pending ["a"]).order ≤ t.order) :=
  (get_next_step_spec examplePlanC).2.1 (mkStep "b" 2 StepStatus.pending ["a"])
    (by simp [Plan.get_next_step, List.mergeSort, examplePlanC, mkStep, mkPlan,
      Plan.dependencies_met, Plan.get_step])

/-! ### C3 -/

theorem perm_all_eq {α : Type} {l1 l2 : List α} (h : l1.Perm l2) (f : α → Bool) :
    l1.all f = l2.all f := by
  apply Bool.eq_iff_iff.mpr
  rw [List.all_eq_true, List.all_eq_true]
  exact ⟨fun ha x hx => ha x (h.symm.subset hx), fun ha x hx => ha x (h.subset hx)⟩

theorem perm_any_eq {α : Type} {l1 l2 : List α} (h : l1.Perm l2) (f : α → Bool) :
    l1.any f = l2.any f := by
  apply Bool.eq_iff_iff.mpr
  rw [List.any_eq_true, List.any_eq_true]
  constructor
  · rintro ⟨x, hx, hfx⟩
    exact ⟨x, h.subset hx, hfx⟩
  · rintro ⟨x, hx, hfx⟩
    exact ⟨x, h.symm.subset hx, hfx⟩

theorem derive_status_perm {l1 l2 : List StepStatus} (h : l1.Perm l2) :
    derive_status l1 = derive_status l2 := by
  unfold derive_status
  rw [perm_all_eq h, perm_any_eq h, perm_any_eq h]

theorem statusOf_perm {steps1 steps2 : List Step}
    (h : (stepStatuses steps1).Perm (stepStatuses steps2)) :
    statusOf steps1 = statusOf steps2 := by
  have hlen : steps1.length = steps2.length := by
    have hl := h.length_eq
    simpa [stepStatuses] using hl
  have hempty : steps1.isEmpty = steps2.isEmpty := by
    cases steps1 <;> cases steps2 <;> simp_all
  unfold statusOf
  rw [hempty]
  by_cases he : steps2.isEmpty
  · rw [if_pos he, if_pos he]
  · rw [if_neg he, if_neg he]
    exact derive_status_perm h

theorem statusOf_empty : statusOf [] = PlanStatus.not_started := rfl

theorem statusOf_all_completed (steps : List Step) (hne : steps ≠ [])
    (h : ∀ s ∈ steps, s.status = StepStatus.completed) :
    statusOf steps = PlanStatus.completed := by
  have h1 : steps.isEmpty = false := by simp [List.isEmpty_iff, hne]
  have h2 : (stepStatuses steps).all (fun st => decide (st = StepStatus.completed)) = true := by
    rw [List.all_eq_true]
    intro st hst
    rw [decide_eq_true_eq]
    rcases List.mem_map.mp hst with ⟨s, hs, rfl⟩
    exact h s hs
  simp only [statusOf, derive_status, h1, h2]
  rfl

theorem statusOf_any_failed (steps : List Step)
    (h : ∃ s ∈ steps, s.status = StepStatus.failed) :
    statusOf steps = PlanStatus.failed := by
  rcases h with ⟨s0, hs0, hf0⟩
  have h1 : steps.isEmpty = false := by
    cases steps
    · exact absurd hs0 (List.not_mem_nil s0)
    · rfl
  have h2 : (stepStatuses steps).all (fun st => decide (st = StepStatus.completed)) = false := by
    rw [List.all_eq_false]
    exact ⟨s0.status, List.mem_map_of_mem Step.status hs0, by rw [hf0]; decide⟩
  have h3 : (stepStatuses steps).any (fun st => decide (st = StepStatus.failed)) = true := by
    rw [List.any_eq_true]
    exact ⟨s0.status, List.mem_map_of_mem Step.status hs0, by rw [hf0]; decide⟩
  simp only [statusOf, derive_status, h1, h2, h3]
  rfl

theorem statusOf_any_active (steps : List Step)
    (hnc : ∃ s ∈ steps, s.status ≠ StepStatus.completed)
    (hnf : ∀ s ∈ steps, s.status ≠ StepStatus.failed)
    (hact : ∃ s ∈ steps, s.status = StepStatus.in_progress ∨ s.status = StepStatus.completed) :
    statusOf steps = PlanStatus.in_progress := by
  rcases hnc with ⟨s0, hs0, hc0⟩
  have h1 : steps.isEmpty = false := by
    cases steps
    · exact absurd hs0 (List.not_mem_nil s0)
    · rfl
  have h2 : (stepStatuses steps).all (fun st => decide (st = StepStatus.completed)) = false := by
    rw [List.all_eq_false]
    exact ⟨s0.status, List.mem_map_of_mem Step.status hs0, by simpa using hc0⟩
  have h3 : (stepStatuses steps).any (fun st => decide (st = StepStatus.failed)) = false := by
    rw [List.any_eq_false]
    intro st hst
    rcases List.mem_map.mp hst with ⟨s, hs, rfl⟩
    simpa using hnf s hs
  have h4 : (stepStatuses steps).any (fun st =>
      decide (st = StepStatus.in_progress ∨ st = StepStatus.completed)) = true := by
    rw [List.any_eq_true]
    rcases hact with ⟨s1, hs1, hor⟩
    exact ⟨s1.status, List.mem_map_of_mem Step.status hs1, by simpa using hor⟩
  simp only [statusOf, derive_status, h1, h2, h3, h4]
  rfl

theorem statusOf_all_inactive (steps : List Step) (hne : steps ≠ [])
    (h : ∀ s ∈ steps, s.status = StepStatus.pending ∨ s.status = StepStatus.skipped) :
    statusOf steps = PlanStatus.not_started := by
  have h1 : steps.isEmpty = false := by simp [List.isEmpty_iff, hne]
  have h2 : (stepStatuses steps).all (fun st => decide (st = StepStatus.completed)) = false := by
    rw [List.all_eq_false]
    rcases List.exists_mem_of_ne_nil steps hne with ⟨s0, hs0⟩
    refine ⟨s0.status, List.mem_map_of_mem Step.status hs0, ?_⟩
    rcases h s0 hs0 with hp | hp <;> rw [hp] <;> decide
  have h3 : (stepStatuses steps).any (fun st => decide (st = StepStatus.failed)) = false := by
    rw [List.any_eq_false]
    intro st hst
    rcases List.mem_map.mp hst with ⟨s, hs, rfl⟩
    rcases h s hs with hp | hp <;> rw [hp] <;> decide
  have h4 : (stepStatuses steps).any (fun st =>
      decide (st = StepStatus.in_progress ∨ st = StepStatus.completed)) = false := by
    rw [List.any_eq_false]
    intro st hst
    rcases List.mem_map.mp hst with ⟨s, hs, rfl⟩
    rcases h s hs with hp | hp <;> rw [hp] <;> decide
  simp only [statusOf, derive_status, h1, h2, h3, h4]
  rfl

/-- C3: the derived plan status is a pure function of the multiset of
step statuses, that function is exactly the stated precedence (empty →
not-started; all completed → completed; any failed → failed; any
in-progress or completed → in-progress; only pending/skipped →
not-started), and `add_step`, successful `update_step` and successful
`delete_step` each leave the plan status equal to the value this rule
computes from the resulting steps. -/
theorem status_derivation_spec :
    (∀ p q : Plan, (stepStatuses p.steps).Perm (stepStatuses q.steps) →
      (Plan.update_plan_status p).status = (Plan.update_plan_status q).status) ∧
    (∀ p : Plan,
      (p.steps = [] → (Plan.update_plan_status p).status = PlanStatus.not_started) ∧
      (p.steps ≠ [] → (∀ s ∈ p.steps, s.status = StepStatus.completed) →
        (Plan.update_plan_status p).status = PlanStatus.completed) ∧
      ((∃ s ∈ p.steps, s.status = StepStatus.failed) →
        (Plan.update_plan_status p).status = PlanStatus.failed) ∧
      ((∃ s ∈ p.steps, s.status ≠ StepStatus.completed) →
        (∀ s ∈ p.steps, s.status ≠ StepStatus.failed) →
        (∃ s ∈ p.steps, s.status = StepStatus.in_progress ∨ s.status = StepStatus.completed) →
        (Plan.update_plan_status p).status = PlanStatus.in_progress) ∧
      (p.steps ≠ [] →
        (∀ s ∈ p.steps, s.status = StepStatus.pending ∨ s.status = StepStatus.skipped) →
        (Plan.update_plan_status p).status = PlanStatus.not_started)) ∧
    (∀ (p : Plan) descr order dep notes new_id now,
      (p.add_step descr order dep notes new_id now).2.status
        = statusOf (p.add_step descr order dep notes new_id now).2.steps) ∧
    (∀ (p : Plan) sid st notes now, (p.update_step sid st notes now).1 = true →
      (p.update_step sid st notes now).2.status
        = statusOf (p.update_step sid st notes now).2.steps) ∧
    (∀ (p : Plan) sid now, (p.delete_step sid now).1 = true →
      (p.delete_step sid now).2.status = statusOf (p.delete_step sid now).2.steps) := by
  refine ⟨?_, ?_, ?_, ?_, ?_⟩
  · intro p q h
    rw [update_plan_status_status, update_plan_status_status]
    exact statusOf_perm h
  · intro p
    refine ⟨?_, ?_, ?_, ?_, ?_⟩
    · intro h
      rw [update_plan_status_status, h, statusOf_empty]
    · intro hne h
      rw [update_plan_status_status]
      exact statusOf_all_completed p.steps hne h
    · intro h
      rw [update_plan_status_status]
      exact statusOf_any_failed p.steps h
    · intro hnc hnf hact
      rw [update_plan_status_status]
      exact statusOf_any_active p.steps hnc hnf hact
    · intro hne h
      rw [update_plan_status_status]
      exact statusOf_all_inactive p.steps hne h
  · intro p descr order dep notes new_id now
    rfl
  · intro p sid st notes now h
    cases hg : p.get_step sid with
    | none => simp [Plan.update_step, hg] at h
    | some s => simp [Plan.update_step, hg, update_plan_status_status, update_plan_status_steps]
  · intro p sid now h
    cases hg : p.get_step sid with
    | none => simp [Plan.delete_step, hg] at h
    | some s => simp [Plan.delete_step, hg, update_plan_status_status, update_plan_status_steps]

/-- C3, witness: permutation invariance on two concrete plans whose step
statuses are rearrangements of each other, and the recompute clause for a
successful concrete `delete_step`. -/
theorem status_derivation_spec_witness :
    ((Plan.update_plan_status
        (mkPlan [mkStep "a" 1 StepStatus.completed [], mkStep "b" 2 StepStatus.pending []])).status
      = (Plan.update_plan_status
        (mkPlan [mkStep "x" 1 StepStatus.pending [], mkStep "y" 2 StepStatus.completed []])).status) ∧
    ((examplePlanB.delete_step "b" 7).2.status
      = statusOf (examplePlanB.delete_step "b" 7).2.steps) :=
  ⟨status_derivation_spec.1 _ _ (by decide),
    status_derivation_spec.2.2.2.2 examplePlanB "b" 7 (by decide)⟩

/-! ### C4 -/

theorem countP_status_partition :
    ∀ steps : List Step,
      steps.countP (fun s => decide (s.status = StepStatus.completed))
        + steps.countP (fun s => decide (s.status = StepStatus.in_progress))
        + steps.countP (fun s => decide (s.status = StepStatus.pending))
        + steps.countP (fun s => decide (s.status = StepStatus.failed))
        + steps.countP (fun s => decide (s.status = StepStatus.skipped)) = steps.length
  | [] => rfl
  | s :: rest => by
    have ih := countP_status_partition rest
    cases hst : s.status <;> simp [List.countP_cons, hst] <;> omega

theorem round2_mono {x y : ℚ} (h : x ≤ y) : round2 x ≤ round2 y := by
  unfold round2
  have h2 : round (x * 100) ≤ round (y * 100) := by
    rw [round_eq, round_eq]
    exact Int.floor_mono (by linarith)
  have h3 : ((round (x * 100) : ℤ) : ℚ) ≤ ((round (y * 100) : ℤ) : ℚ) := by
    exact_mod_cast h2
  linarith

theorem round2_zero : round2 0 = 0 := by
  unfold round2
  norm_num

theorem round2_hundred : round2 100 = 100 := by
  unfold round2
  have h : ((100 : ℚ) * 100) = ((10000 : ℤ) : ℚ) := by norm_num
  rw [h, round_intCast]
  norm_num

/-- C4: `get_progress` reports the step count as total, five status
buckets that sum to the total, a completion percentage equal to
`100 × completed / total` rounded to two decimals and lying in
`[0, 100]`, and the all-zero record (percentage exactly 0) for an empty
plan. -/
theorem get_progress_spec (p : Plan) :
    (p.get_progress).total_steps = p.steps.length ∧
    (p.get_progress).completed_steps + (p.get_progress).in_progress_steps
      + (p.get_progress).pending_steps + (p.get_progress).failed_steps
      + (p.get_progress).skipped_steps = (p.get_progress).total_steps ∧
    0 ≤ (p.get_progress).completion_percentage ∧
    (p.get_progress).completion_percentage ≤ 100 ∧
    (p.steps.length ≠ 0 →
      (p.get_progress).completion_percentage
        = round2 (100 * ((p.get_progress).completed_steps : ℚ)
            / ((p.get_progress).total_steps : ℚ))) ∧
    (p.steps.length = 0 → p.get_progress = ⟨0, 0, 0, 0, 0, 0, 0⟩) := by
  by_cases hz : p.steps.length = 0
  · have hpr : p.get_progress = ⟨0, 0, 0, 0, 0, 0, 0⟩ := by
      simp [Plan.get_progress, hz]
    rw [hpr]
    refine ⟨hz.symm, rfl, le_refl 0, by norm_num, ?_, fun _ => rfl⟩
    intro h
    exact absurd hz h
  · have hpr : p.get_progress =
        { total_steps := p.steps.length
          completed_steps := p.steps.countP fun s => decide (s.status = StepStatus.completed)
          in_progress_steps := p.steps.countP fun s => decide (s.status = StepStatus.in_progress)
          pending_steps := p.steps.countP fun s => decide (s.status = StepStatus.pending)
          failed_steps := p.steps.countP fun s => decide (s.status = StepStatus.failed)
          skipped_steps := p.steps.countP fun s => decide (s.status = StepStatus.skipped)
          completion_percentage :=
            round2 (((p.steps.countP fun s => decide (s.status = StepStatus.completed)) : ℚ)
              / (p.steps.length : ℚ) * 100) } := by
      simp [Plan.get_progress, hz]
    rw [hpr]
    have hcle : (p.steps.countP fun s => decide (s.status = StepStatus.completed))
        ≤ p.steps.length := List.countP_le_length _
    have htpos : (0 : ℚ) < (p.steps.length : ℚ) := by
      have : 0 < p.steps.length := Nat.pos_of_ne_zero hz
      exact_mod_cast this
    have hx0 : (0 : ℚ) ≤ ((p.steps.countP fun s => decide (s.status = StepStatus.completed)) : ℚ)
        / (p.steps.length : ℚ) * 100 := by
      apply mul_nonneg _ (by norm_num)
      apply div_nonneg _ (le_of_lt htpos)
      exact_mod_cast Nat.zero_le _
    have hx100 : ((p.steps.countP fun s => decide (s.status = StepStatus.completed)) : ℚ)
        / (p.steps.length : ℚ) * 100 ≤ 100 := by
      have hdiv : ((p.steps.countP fun s => decide (s.status = StepStatus.completed)) : ℚ)
          / (p.steps.length : ℚ) ≤ 1 := by
        rw [div_le_one htpos]
        exact_mod_cast hcle
      nlinarith
    refine ⟨rfl, countP_status_partition p.steps, ?_, ?_, ?_, ?_⟩
    · have := round2_mono hx0
      rw [round2_zero] at this
      exact this
    · have := round2_mono hx100
      rw [round2_hundred] at this
      exact this
    · intro _
      ring_nf
    · intro h
      exact absurd h hz

/-- C4, witness: the specification instantiated on the concrete two-step
plan `examplePlanD` (one completed step out of two). -/
theorem get_progress_spec_witness :
    (examplePlanD.get_progress).total_steps = examplePlanD.steps.length ∧
    (examplePlanD.get_progress).completion_percentage
      = round2 (100 * ((examplePlanD.get_progress).completed_steps : ℚ)
          / ((examplePlanD.get_progress).total_steps : ℚ)) :=
  ⟨(get_progress_spec examplePlanD).1,
    (get_progress_spec examplePlanD).2.2.2.2.1 (by decide)⟩

/-! ### C5 -/

/-- C5: for a step id that identifies no step of the plan, `update_step`
and `delete_step` report failure and return the plan completely
unchanged (every step field, the plan status, the steps list and the
plan timestamps included). -/
theorem missing_step_no_mutation (p : Plan) (sid : String) (st : Option StepStatus)
    (notes : Option String) (now now2 : Nat)
    (h : ∀ s ∈ p.steps, s.step_id ≠ sid) :
    p.update_step sid st notes now = (false, p) ∧
    p.delete_step sid now2 = (false, p) := by
  have hg : p.get_step sid = none := by
    rw [Plan.get_step, List.find?_eq_none]
    intro s hs
    simpa using h s hs
  constructor
  · simp [Plan.update_step, hg]
  · simp [Plan.delete_step, hg]

/-- C5, witness: updating or deleting the absent step id `"zz"` on the
concrete plan `examplePlanA` fails and returns the plan unchanged. -/
theorem missing_step_no_mutation_witness :
    examplePlanA.update_step "zz" none none 9 = (false, examplePlanA) ∧
    examplePlanA.delete_step "zz" 9 = (false, examplePlanA) :=
  missing_step_no_mutation examplePlanA "zz" none none 9 9 (by decide)

/-! ### C6 -/

/-- C6: `reset_steps` sets every step's status to `pending`, clears
every step's `completed_at`, and forces the plan status to
`not_started`, while leaving every step's order, description,
dependencies and notes unchanged and preserving the number of steps. -/
theorem reset_steps_spec (p : Plan) (now : Nat) :
    (∀ s ∈ (p.reset_steps now).steps,
      s.status = StepStatus.pending ∧ s.completed_at = none ∧ s.updated_at = now) ∧
    (p.reset_steps now).status = PlanStatus.not_started ∧
    (p.reset_steps now).steps.map Step.order = p.steps.map Step.order ∧
    (p.reset_steps now).steps.map Step.description = p.steps.map Step.description ∧
    (p.reset_steps now).steps.map Step.depends_on = p.steps.map Step.depends_on ∧
    (p.reset_steps now).steps.map Step.notes = p.steps.map Step.notes ∧
    (p.reset_steps now).steps.length = p.steps.length := by
  refine ⟨?_, rfl, ?_, ?_, ?_, ?_, ?_⟩
  · intro s hs
    simp only [Plan.reset_steps, List.mem_map] at hs
    rcases hs with ⟨t, ht, rfl⟩
    exact ⟨rfl, rfl, rfl⟩
  · simp only [Plan.reset_steps, List.map_map]
    exact List.map_congr_left fun s _ => rfl
  · simp only [Plan.reset_steps, List.map_map]
    exact List.map_congr_left fun s _ => rfl
  · simp only [Plan.reset_steps, List.map_map]
    exact List.map_congr_left fun s _ => rfl
  · simp only [Plan.reset_steps, List.map_map]
    exact List.map_congr_left fun s _ => rfl
  · simp [Plan.reset_steps]

/-- C6, witness: the specification applied to the concrete plan
`examplePlanD` and, for the per-step clause, to the concrete reset image
of its step `"b"`. -/
theorem reset_steps_spec_witness :
    ((examplePlanD.reset_steps 9).status = PlanStatus.not_started) ∧
    (({ mkStep "b" 2 StepStatus.pending [] with updated_at := 9 }).status
        = StepStatus.pending ∧
      ({ mkStep "b" 2 StepStatus.pending [] with updated_at := 9 }).completed_at = none ∧
      ({ mkStep "b" 2 StepStatus.pending [] with updated_at := 9 }).updated_at = 9) :=
  ⟨(reset_steps_spec examplePlanD 9).2.1,
    (reset_steps_spec examplePlanD 9).1 _ (by decide)⟩

/-! ### C7 -/

/-- C7: `reset_steps` is idempotent — running it at time `t1` and again
at time `t2` produces exactly the plan a single run at time `t2`
produces (in particular two immediate runs equal one run). -/
theorem reset_steps_idempotent (p : Plan) (t1 t2 : Nat) :
    (p.reset_steps t1).reset_steps t2 = p.reset_steps t2 := by
  unfold Plan.reset_steps
  simp only [List.map_map]
  congr 1

/-! ### C8 -/

theorem statusOf_ne_paused (steps : List Step) : statusOf steps ≠ PlanStatus.paused := by
  unfold statusOf derive_status
  split
  · intro h
    exact PlanStatus.noConfusion h
  · split
    · intro h
      exact PlanStatus.noConfusion h
    · split
      · intro h
        exact PlanStatus.noConfusion h
      · split
        · intro h
          exact PlanStatus.noConfusion h
        · intro h
          exact PlanStatus.noConfusion h

/-- C8: no step-level operation ever yields a `paused` plan — the
status derivation only produces `not_started`, `completed`, `failed` or
`in_progress`, and `reset_steps` forces `not_started`, so
`status ≠ paused` is preserved by `add_step`, `update_step`,
`delete_step` and `reset_steps`. -/
theorem step_ops_never_paused (p : Plan) (descr : String) (order : Option Nat)
    (dep : Option (List String)) (notes notes2 : Option String)
    (new_id sid sid2 : String) (st : Option StepStatus) (t1 t2 t3 t4 : Nat)
    (h : p.status ≠ PlanStatus.paused) :
    (p.add_step descr order dep notes new_id t1).2.status ≠ PlanStatus.paused ∧
    (p.update_step sid st notes2 t2).2.status ≠ PlanStatus.paused ∧
    (p.delete_step sid2 t3).2.status ≠ PlanStatus.paused ∧
    (p.reset_steps t4).status ≠ PlanStatus.paused ∧
    (∀ t5, (update_plan_metadata p none none (some PlanStatus.paused) t5).status
      = PlanStatus.paused) := by
  refine ⟨?_, ?_, ?_, ?_, fun t5 => rfl⟩
  · exact statusOf_ne_paused _
  · cases hg : p.get_step sid with
    | none => simpa [Plan.update_step, hg] using h
    | some s =>
      simp only [Plan.update_step, hg, update_plan_status_status]
      exact statusOf_ne_paused _
  · cases hg : p.get_step sid2 with
    | none => simpa [Plan.delete_step, hg] using h
    | some s =>
      simp only [Plan.delete_step, hg, update_plan_status_status]
      exact statusOf_ne_paused _
  · simp [Plan.reset_steps]

/-- C8, witness: all four operations applied to the concrete plan
`examplePlanB` (whose status is not `paused`) yield non-`paused`
statuses. -/
theorem step_ops_never_paused_witness :
    (examplePlanB.add_step "x" none none none "n9" 5).2.status ≠ PlanStatus.paused ∧
    (examplePlanB.update_step "b" none none 6).2.status ≠ PlanStatus.paused ∧
    (examplePlanB.delete_step "c" 7).2.status ≠ PlanStatus.paused ∧
    (examplePlanB.reset_steps 8).status ≠ PlanStatus.paused ∧
    (update_plan_metadata examplePlanB none none (some PlanStatus.paused) 9).status
      = PlanStatus.paused := by
  have h := step_ops_never_paused examplePlanB "x" none none none none "n9" "b" "c" none
    5 6 7 8 (by decide)
  exact ⟨h.1, h.2.1, h.2.2.1, h.2.2.2.1, h.2.2.2.2 9⟩

/-! ### C9 -/

/-- C9: `update_status` never clears `completed_at` — updating to any
non-`completed` status leaves `completed_at` exactly as it was, updating
to `completed` stamps it with the current time, and a step whose
`completed_at` is set keeps it non-null under every status update. -/
theorem update_status_preserves_completed_at (s : Step) (st : StepStatus)
    (notes : Option String) (now : Nat) (h : st ≠ StepStatus.completed) :
    (s.update_status st notes now).completed_at = s.completed_at ∧
    (s.update_status StepStatus.completed notes now).completed_at = some now ∧
    (∀ st2 : StepStatus, s.completed_at ≠ none →
      (s.update_status st2 notes now).completed_at ≠ none) := by
  refine ⟨?_, ?_, ?_⟩
  · cases notes <;> simp [Step.update_status, if_neg h]
  · cases notes <;> simp [Step.update_status]
  · intro st2 hne
    by_cases h2 : st2 = StepStatus.completed
    · subst h2
      cases notes <;> simp [Step.update_status]
    · cases notes <;> simpa [Step.update_status, if_neg h2] using hne

/-- C9, witness: the concrete completed step of `examplePlanD` (whose
`completed_at` is `some 3`) updated to `failed` keeps `completed_at =
some 3` (and non-null under any update). -/
theorem update_status_preserves_completed_at_witness :
    (({ mkStep "a" 1 StepStatus.completed [] with completed_at := some 3 }).update_status
        StepStatus.failed none 9).completed_at
      = ({ mkStep "a" 1 StepStatus.completed [] with completed_at := some 3 }).completed_at ∧
    (({ mkStep "a" 1 StepStatus.completed [] with completed_at := some 3 }).update_status
        StepStatus.completed none 9).completed_at = some 9 :=
  ⟨(update_status_preserves_completed_at
      { mkStep "a" 1 StepStatus.completed [] with completed_at := some 3 }
      StepStatus.failed none 9 (by decide)).1,
    (update_status_preserves_completed_at
      { mkStep "a" 1 StepStatus.completed [] with completed_at := some 3 }
      StepStatus.failed none 9 (by decide)).2.1⟩

/-! ### C10 -/

theorem updateFirst_id (sid : String) :
    ∀ l : List Step, updateFirst sid (fun step => step) l = l
  | [] => rfl
  | s :: rest => by
    simp only [updateFirst]
    split
    · rfl
    · rw [updateFirst_id sid rest]

/-- C10: `update_step` on an existing step id with neither a status nor
notes succeeds, leaves the steps (and all plan metadata) entirely
unchanged, and still refreshes the plan's `updated_at` and recomputes
the plan status. -/
theorem update_step_noop_spec (p : Plan) (sid : String) (now : Nat)
    (h : (p.get_step sid).isSome = true) :
    (p.update_step sid none none now).1 = true ∧
    (p.update_step sid none none now).2.steps = p.steps ∧
    (p.update_step sid none none now).2.updated_at = now ∧
    (p.update_step sid none none now).2.status = statusOf p.steps ∧
    (p.update_step sid none none now).2.plan_id = p.plan_id ∧
    (p.update_step sid none none now).2.name = p.name ∧
    (p.update_step sid none none now).2.description = p.description ∧
    (p.update_step sid none none now).2.user_id = p.user_id ∧
    (p.update_step sid none none now).2.created_at = p.created_at := by
  cases hg : p.get_step sid with
  | none =>
    rw [hg] at h
    simp at h
  | some s =>
    simp [Plan.update_step, hg, Plan.update_plan_status, updateFirst_id]

/-- C10, witness: the no-op update of the existing step `"a"` of
`examplePlanA` succeeds, keeps the steps, refreshes the timestamp and
recomputes the status. -/
theorem update_step_noop_spec_witness :
    (examplePlanA.update_step "a" none none 9).1 = true ∧
    (examplePlanA.update_step "a" none none 9).2.steps = examplePlanA.steps ∧
    (examplePlanA.update_step "a" none none 9).2.updated_at = 9 ∧
    (examplePlanA.update_step "a" none none 9).2.status = statusOf examplePlanA.steps :=
  ⟨(update_step_noop_spec examplePlanA "a" 9 (by decide)).1,
    (update_step_noop_spec examplePlanA "a" 9 (by decide)).2.1,
    (update_step_noop_spec examplePlanA "a" 9 (by decide)).2.2.1,
    (update_step_noop_spec examplePlanA "a" 9 (by decide)).2.2.2.1⟩

end PlanningAgent
